import Mathlib

/-!
Verification of the tag-resolution and pull control flow of
`src/compose/docker.go` (rocker-compose). The `imagename` package is an
external dependency of this file; its image-reference semantics
(containment, version parsing, ordering) are modelled from the spec,
while `findMostRecentTag`, `PullDockerImage`, `listImagesInDocker` and
`GetBridgeIp` are embedded from the source, with the opaque docker and
registry services passed in as explicit outcomes.
-/

deriving instance DecidableEq for Except

namespace RockerCompose

/-- Modelled from the spec: a semantic version with numeric major, minor
and patch components (an image tag may parse as a semantic version,
yielding an ordered version value). -/
structure Version where
  major : Nat
  minor : Nat
  patch : Nat
deriving DecidableEq

/-- Modelled from the spec: strict semantic-version ordering used by
`TagAsVersion().Less` in the selection loop — numeric comparison, major
first, then minor, then patch. -/
def Version.Less (a b : Version) : Bool :=
  decide (a.major < b.major) ||
    (decide (a.major = b.major) &&
      (decide (a.minor < b.minor) ||
        (decide (a.minor = b.minor) && decide (a.patch < b.patch))))

/-- Decimal value of a digit run, `none` on a non-digit. -/
def digitsAcc : Nat → List Char → Option Nat
  | acc, [] => some acc
  | acc, c :: cs => if c.isDigit then digitsAcc (acc * 10 + (c.toNat - 48)) cs else none

/-- Decimal value of a nonempty digit run, `none` otherwise. -/
def digitsToNat : List Char → Option Nat
  | [] => none
  | c :: cs => digitsAcc 0 (c :: cs)

/-- Split a character list at every dot. -/
def splitDotsAcc : List Char → List Char → List (List Char)
  | acc, [] => [acc.reverse]
  | acc, c :: cs =>
    if c = '.' then acc.reverse :: splitDotsAcc [] cs else splitDotsAcc (c :: acc) cs

/-- Modelled from the spec: parse a tag as a semantic version `X.Y.Z`
with numeric components; any other shape carries no version. -/
def parseVersionChars (cs : List Char) : Option Version :=
  match splitDotsAcc [] cs with
  | [a, b, c] =>
    match digitsToNat a, digitsToNat b, digitsToNat c with
    | some x, some y, some z => some ⟨x, y, z⟩
    | _, _, _ => none
  | _ => none

/-- Parse a tag string as a semantic version. -/
def parseVersion (s : String) : Option Version :=
  parseVersionChars s.toList

/-- Modelled from the spec (ImageReference): an immutable image
reference with a repository name (registry folded into the name) and a
tag that may be a literal, a tilde version range, or the wildcard. -/
structure ImageName where
  name : String
  tag : String
deriving DecidableEq

/-- The literal latest marker (`imagename.Latest`). -/
def Latest : String := "latest"

/-- Modelled from the spec: the wildcard "all versions" tag. -/
def ImageName.All (i : ImageName) : Bool := i.tag == "*"

/-- Modelled from the spec: base of a tilde version range `~X.Y.Z`, when
the tag has that shape. -/
def rangeBase (s : String) : Option Version :=
  match s.toList with
  | '~' :: rest => parseVersionChars rest
  | _ => none

/-- An image reference specifies a version range when its tag is a tilde
range. -/
def ImageName.HasVersionRange (i : ImageName) : Bool := (rangeBase i.tag).isSome

/-- Whether the tag parses as a semantic version (`HasVersion()`). -/
def ImageName.HasVersion (i : ImageName) : Bool := (parseVersion i.tag).isSome

/-- The parsed version (`TagAsVersion()`), meaningful (per the spec) only when `HasVersion()`
holds; outside that domain it yields the zero version. -/
def ImageName.TagAsVersion (i : ImageName) : Version :=
  (parseVersion i.tag).getD ⟨0, 0, 0⟩

/-- Modelled from the spec: the candidate's concrete tag, inspected by
the selection loop for the literal latest marker. -/
def ImageName.GetTag (i : ImageName) : String := i.tag

/-- Modelled from the spec: `~X.Y.Z` contains exactly the versions with
the same major and minor components and patch at least `Z` (source
comment: `~1.2.3` contains `1.2.5`, but not `1.3.0`). -/
def tildeContains (lo v : Version) : Bool :=
  decide (v.major = lo.major) && decide (v.minor = lo.minor) && decide (lo.patch ≤ v.patch)

/-- Modelled from the spec (containment): same repository, and the
candidate's concrete tag satisfies the reference's constraint — the
wildcard always satisfies, a range contains the parseable versions that
fall inside it, and otherwise tags must match exactly. -/
def ImageName.Contains (i c : ImageName) : Bool :=
  i.name == c.name &&
    (if i.All then true
     else
       match rangeBase i.tag with
       | some lo =>
         match parseVersion c.tag with
         | some v => tildeContains lo v
         | none => false
       | none => i.tag == c.tag)

/-- The repository name with registry folded in (`NameWithRegistry()`). -/
def ImageName.NameWithRegistry (i : ImageName) : String := i.name

/-- Construction of a fresh reference (`imagename.New`) from a repository name
and a concrete tag. -/
def ImageName.New (name tag : String) : ImageName := ⟨name, tag⟩

/-- The `%s` rendering of an image name. -/
def ImageName.toStr (i : ImageName) : String := i.name ++ ":" ++ i.tag

/-- The selection loop of `findMostRecentTag` (docker.go lines
222-249), carrying the running best `img` through the remaining
candidates: skip candidates the image does not contain; an in-range
literal latest wins immediately; the first in-range candidate is adopted
as best; a candidate without a parseable version never displaces the
best; when both best and candidate parse, a strictly greater candidate
replaces the best. -/
def findGo (image : ImageName) : Option ImageName → List ImageName → Option ImageName
  | img, [] => img
  | img, candidate :: rest =>
    if !(image.Contains candidate) then
      findGo image img rest
    else if candidate.GetTag = Latest then
      some candidate
    else
      match img with
      | none => findGo image (some candidate) rest
      | some best =>
        if !candidate.HasVersion then
          findGo image (some best) rest
        else if best.HasVersion && candidate.HasVersion &&
            best.TagAsVersion.Less candidate.TagAsVersion then
          findGo image (some candidate) rest
        else
          findGo image (some best) rest

/-- The function `findMostRecentTag` (docker.go lines 221-252). -/
def findMostRecentTag (image : ImageName) (list : List ImageName) : Option ImageName :=
  findGo image none list

/-- Go's two-value return of the listing helpers: on failure the list is
nil (spec: a listing failure must not leave partially-built candidate
state visible — return nil list on error). -/
def listOrNil : Except String (List ImageName) → List ImageName × Option String
  | .ok l => (l, none)
  | .error e => ([], some e)

/-- Selection over the one gathered (list, err) pair, the tail of the
resolution block (docker.go lines 145-151): a non-nil listing error is
surfaced; otherwise the most recent applicable tag, when one exists,
replaces the image's own tag. -/
def resolveFrom (image : ImageName) (p : List ImageName × Option String) :
    Except String String :=
  match p.2 with
  | some e => .error e
  | none =>
    match findMostRecentTag image p.1 with
    | some recent => .ok recent.tag
    | none => .ok image.tag

/-- The tag-resolution block of `PullDockerImage` (docker.go lines
136-152), with the two listing services passed in as their outcomes.
Returns (local consulted, remote consulted, resolved tag or surfaced
error): for a ranged or wildcard image, list local images; when that
list is empty (which a local failure makes it) or `force` is set, the
remote listing replaces both list and error. -/
def resolveTag (image : ImageName) (force : Bool)
    (localSrc remoteSrc : Except String (List ImageName)) :
    Bool × Bool × Except String String :=
  if image.HasVersionRange || image.All then
    let p := listOrNil localSrc
    if p.1.length == 0 || force then (true, true, resolveFrom image (listOrNil remoteSrc))
    else (true, false, resolveFrom image p)
  else (false, false, .ok image.tag)

/-- Outcome of one `PullDockerImage` call: which listing sources were
consulted, and the returned reference or error. -/
structure PullOutcome where
  usedLocal : Bool
  usedRemote : Bool
  result : Except String ImageName
deriving DecidableEq

/-- The pull itself and its progress stream (docker.go lines 154-189),
abstracted by their outcomes: a stream-decode failure and a pull
failure each yield a wrapped error; on success a freshly constructed
reference combining the repository name with the resolved tag is
returned. -/
def pullResult (image : ImageName) (tag : String) (streamErr pullErr : Option String) :
    Except String ImageName :=
  match streamErr with
  | some e =>
    .error ("Failed to process json stream for image: " ++ image.toStr ++ ", error: " ++ e)
  | none =>
    match pullErr with
    | some e => .error ("Failed to pull image " ++ image.toStr ++ ", error: " ++ e)
    | none => .ok (ImageName.New image.NameWithRegistry tag)

/-- The function `PullDockerImage` (docker.go lines 133-190): resolve the tag,
surfacing a resolution error unchanged, then run the pull with the
resolved tag. -/
def PullDockerImage (image : ImageName) (force : Bool)
    (localSrc remoteSrc : Except String (List ImageName))
    (streamErr pullErr : Option String) : PullOutcome :=
  match resolveTag image force localSrc remoteSrc with
  | (uL, uR, Except.error e) => ⟨uL, uR, Except.error e⟩
  | (uL, uR, Except.ok tag) => ⟨uL, uR, pullResult image tag streamErr pullErr⟩

/-- The candidate list the resolution block ends up selecting over when
both listings succeed: the remote list when the local list is empty or
`force` is set (docker.go line 141), the local list otherwise. -/
def chosenList (force : Bool) (llist rlist : List ImageName) : List ImageName :=
  if llist.length == 0 || force then rlist else llist

/-- Resolution over one (list, err) pair followed by the pull, used to
state which gathered list a `PullDockerImage` outcome was computed
from. -/
def pullFrom (image : ImageName) (p : List ImageName × Option String)
    (streamErr pullErr : Option String) : Except String ImageName :=
  match resolveFrom image p with
  | .error e => .error e
  | .ok tag => pullResult image tag streamErr pullErr

/-- Split a repo:tag label at its last colon. -/
def splitLastColon : List Char → Option (List Char × List Char)
  | [] => none
  | c :: rest =>
    match splitLastColon rest with
    | some (a, b) => some (c :: a, b)
    | none => if c = ':' then some ([], rest) else none

/-- Modelled from the spec: `imagename.NewFromString` parses a
`repository:tag` label into an image reference (no colon: no tag). -/
def NewFromString (s : String) : ImageName :=
  match splitLastColon s.toList with
  | some (n, t) => ⟨String.mk n, String.mk t⟩
  | none => ⟨s, ""⟩

/-- The inner loop of `listImagesInDocker` (docker.go lines 208-214)
over one local image's repo tags: parse each tag label, append the first
candidate the target image contains, then break. -/
def innerScan (image : ImageName) : List String → List ImageName
  | [] => []
  | tag :: rest =>
    let candidate := NewFromString tag
    if image.Contains candidate then [candidate] else innerScan image rest

/-- The function `listImagesInDocker` (docker.go lines 199-218), success path: the
engine's listing is given as each local image's repo-tag labels. -/
def listImagesInDocker (image : ImageName) (all : List (List String)) : List ImageName :=
  match all with
  | [] => []
  | img :: rest => innerScan image img ++ listImagesInDocker image rest

/-- Go's `%.12s` truncation of a container id. -/
def trunc12 (s : String) : String := String.mk (s.toList.take 12)

/-- Outcome of one `GetBridgeIp` call: the named returns (ip, err) and
whether the disposable container was removed. -/
structure BridgeOutcome where
  ip : String
  err : Option String
  removed : Bool
deriving DecidableEq

/-- The name of the minimal bootstrap image (`emptyImageName`). -/
def emptyImageName : String := "gliderlabs/alpine:3.2"

/-- The part of `GetBridgeIp` after the bootstrap image is ensured (docker.go lines
96-126): create the disposable container; once creation succeeded the
deferred removal runs on every exit path, and its error only claims the
named return `err` when the body left it nil. -/
def bridgeAfterEnsure (createRes : Except String String) (startErr : Option String)
    (inspectContRes : Except String String) (removeErr : Option String) : BridgeOutcome :=
  match createRes with
  | .error ce => ⟨"", some ("Failed to create dummy network container, error: " ++ ce), false⟩
  | .ok id =>
    let body : String × Option String :=
      match startErr with
      | some se =>
        ("", some ("Failed to start dummy network container " ++ trunc12 id ++ ", error: " ++ se))
      | none =>
        match inspectContRes with
        | .error ie =>
          ("", some ("Failed to inspect dummy network container " ++ trunc12 id ++ ", error: " ++ ie))
        | .ok gw => (gw, none)
    match body.2 with
    | some e => ⟨body.1, some e, true⟩
    | none => ⟨body.1, removeErr, true⟩

/-- The function `GetBridgeIp` (docker.go lines 84-127), with each docker call passed
in as its outcome: ensure the bootstrap image (pulling it when the
inspect error is exactly "no such image", any other inspect error being
fatal), then run the disposable-container sequence. -/
def GetBridgeIp (inspectImgErr : Option String) (pullErr : Option String)
    (createRes : Except String String) (startErr : Option String)
    (inspectContRes : Except String String) (removeErr : Option String) : BridgeOutcome :=
  match inspectImgErr with
  | some e =>
    if e = "no such image" then
      match pullErr with
      | some pe => ⟨"", some pe, false⟩
      | none => bridgeAfterEnsure createRes startErr inspectContRes removeErr
    else ⟨"", some ("Failed to inspect image " ++ emptyImageName ++ ", error: " ++ e), false⟩
  | none => bridgeAfterEnsure createRes startErr inspectContRes removeErr

/-- The error `GetBridgeIp` is expected to return once the container was
created: the body's own (start, then inspect) error when there is one,
and only otherwise the removal error. -/
def bridgeExpectedErr (id : String) (startErr : Option String)
    (inspectContRes : Except String String) (removeErr : Option String) : Option String :=
  match startErr with
  | some se =>
    some ("Failed to start dummy network container " ++ trunc12 id ++ ", error: " ++ se)
  | none =>
    match inspectContRes with
    | .error ie =>
      some ("Failed to inspect dummy network container " ++ trunc12 id ++ ", error: " ++ ie)
    | .ok _ => removeErr

/-- The first candidate of a list that the image contains, used to state
where the selection loop adopts its initial best. -/
def firstContained (image : ImageName) : List ImageName → Option ImageName
  | [] => none
  | c :: t => if image.Contains c then some c else firstContained image t

/-- Whether the first in-range candidate (when there is one) carries a
parseable version. -/
def firstContainedParseable (image : ImageName) (l : List ImageName) : Bool :=
  match firstContained image l with
  | some c => c.HasVersion
  | none => true

/-- Whether the optional version is strictly below `vm` whenever it is an actual version. -/
def belowOpt (o : Option Version) (vm : Version) : Bool :=
  match o with
  | some v => v.Less vm
  | none => true

/-- Non-strict version order. -/
def Version.vle (a b : Version) : Prop := a.Less b = true ∨ a = b

theorem Version.less_iff {a b : Version} : a.Less b = true ↔
    a.major < b.major ∨ (a.major = b.major ∧
      (a.minor < b.minor ∨ (a.minor = b.minor ∧ a.patch < b.patch))) := by
  simp [Version.Less]

theorem Version.eq_iff {a b : Version} :
    a = b ↔ a.major = b.major ∧ a.minor = b.minor ∧ a.patch = b.patch := by
  cases a; cases b; simp

theorem Version.less_irrefl (a : Version) : a.Less a = false := by
  rw [Bool.eq_false_iff]
  intro h
  rw [Version.less_iff] at h
  omega

theorem Version.less_asymm {a b : Version} (h : a.Less b = true) : b.Less a = false := by
  rw [Bool.eq_false_iff]
  intro h2
  rw [Version.less_iff] at h h2
  omega

theorem Version.not_less_to_vle {a b : Version} (h : a.Less b = false) : b.vle a := by
  have h2 : ¬ (a.Less b = true) := by simp [h]
  rw [Version.less_iff] at h2
  rw [Version.vle, Version.less_iff, Version.eq_iff]
  omega

theorem Version.vle_refl (a : Version) : a.vle a := Or.inr rfl

theorem Version.less_to_vle {a b : Version} (h : a.Less b = true) : a.vle b := Or.inl h

theorem Version.vle_trans {a b c : Version} (h1 : a.vle b) (h2 : b.vle c) : a.vle c := by
  rw [Version.vle, Version.less_iff, Version.eq_iff] at h1 h2 ⊢
  omega

theorem Version.vle_antisymm {a b : Version} (h1 : a.vle b) (h2 : b.vle a) : a = b := by
  rw [Version.vle, Version.less_iff, Version.eq_iff] at h1 h2
  rw [Version.eq_iff]
  omega

theorem parseVersion_latest : parseVersion Latest = none := by decide

theorem hasVersion_of_latest {c : ImageName} (h : c.GetTag = Latest) :
    c.HasVersion = false := by
  have ht : c.tag = Latest := h
  rw [ImageName.HasVersion, ht, parseVersion_latest]
  rfl

theorem hasVersion_iff {c : ImageName} :
    c.HasVersion = true ↔ ∃ v, parseVersion c.tag = some v := by
  rw [ImageName.HasVersion, Option.isSome_iff_exists]

theorem tagAsVersion_eq {c : ImageName} {v : Version} (h : parseVersion c.tag = some v) :
    c.TagAsVersion = v := by
  rw [ImageName.TagAsVersion, h]
  rfl

theorem contains_name_eq {i c : ImageName} (h : i.Contains c = true) : i.name = c.name := by
  rw [ImageName.Contains, Bool.and_eq_true] at h
  exact eq_of_beq h.1

/-! Step lemmas for the selection loop. -/

theorem findGo_nil (image : ImageName) (img : Option ImageName) :
    findGo image img [] = img := rfl

theorem findGo_cons_skip (image : ImageName) (img : Option ImageName) {c : ImageName}
    (t : List ImageName) (hc : image.Contains c = false) :
    findGo image img (c :: t) = findGo image img t := by
  simp [findGo, hc]

theorem findGo_cons_latest (image : ImageName) (img : Option ImageName) {c : ImageName}
    (t : List ImageName) (hc : image.Contains c = true) (hl : c.GetTag = Latest) :
    findGo image img (c :: t) = some c := by
  simp [findGo, hc, hl]

theorem findGo_cons_adopt (image : ImageName) {c : ImageName} (t : List ImageName)
    (hc : image.Contains c = true) (hl : c.GetTag ≠ Latest) :
    findGo image none (c :: t) = findGo image (some c) t := by
  simp [findGo, hc, hl]

theorem findGo_cons_noversion (image b : ImageName) {c : ImageName} (t : List ImageName)
    (hc : image.Contains c = true) (hl : c.GetTag ≠ Latest) (hv : c.HasVersion = false) :
    findGo image (some b) (c :: t) = findGo image (some b) t := by
  simp [findGo, hc, hl, hv]

theorem findGo_cons_displace (image b : ImageName) {c : ImageName} (t : List ImageName)
    (hc : image.Contains c = true) (hl : c.GetTag ≠ Latest) (hv : c.HasVersion = true)
    (hd : (b.HasVersion && (c.HasVersion && b.TagAsVersion.Less c.TagAsVersion)) = true) :
    findGo image (some b) (c :: t) = findGo image (some c) t := by
  rw [Bool.and_eq_true, Bool.and_eq_true] at hd
  simp [findGo, hc, hl, hv, hd.1, hd.2.2]

theorem findGo_cons_keep (image b : ImageName) {c : ImageName} (t : List ImageName)
    (hc : image.Contains c = true) (hl : c.GetTag ≠ Latest) (hv : c.HasVersion = true)
    (hd : (b.HasVersion && (c.HasVersion && b.TagAsVersion.Less c.TagAsVersion)) = false) :
    findGo image (some b) (c :: t) = findGo image (some b) t := by
  rw [Bool.and_eq_false_iff] at hd
  rcases hd with hb | hd
  · simp [findGo, hc, hl, hv, hb]
  · rw [Bool.and_eq_false_iff] at hd
    rcases hd with hv2 | hless
    · rw [hv] at hv2
      cases hv2
    · simp [findGo, hc, hl, hv, hless]

theorem firstContained_cons_skip (image : ImageName) {c : ImageName} (t : List ImageName)
    (hc : image.Contains c = false) :
    firstContained image (c :: t) = firstContained image t := by
  simp [firstContained, hc]

theorem firstContained_cons_hit (image : ImageName) {c : ImageName} (t : List ImageName)
    (hc : image.Contains c = true) :
    firstContained image (c :: t) = some c := by
  simp [firstContained, hc]

/-- Anything the loop returns starting from a running best is either
that best or an in-range member of the remaining candidates. -/
theorem findGo_some_mem (image : ImageName) :
    ∀ (l : List ImageName) (b r : ImageName),
    findGo image (some b) l = some r →
    r = b ∨ (r ∈ l ∧ image.Contains r = true) := by
  intro l
  induction l with
  | nil =>
    intro b r h
    rw [findGo_nil] at h
    exact Or.inl (Option.some_injective _ h).symm
  | cons c t ih =>
    intro b r h
    by_cases hc : image.Contains c = true
    · by_cases hl : c.GetTag = Latest
      · rw [findGo_cons_latest image (some b) t hc hl] at h
        have hrc : r = c := (Option.some_injective _ h).symm
        exact Or.inr ⟨by rw [hrc]; exact List.mem_cons_self c t, by rw [hrc]; exact hc⟩
      · by_cases hv : c.HasVersion = true
        · rcases hd : (b.HasVersion && (c.HasVersion && b.TagAsVersion.Less c.TagAsVersion)) with hf | ht
          · rw [findGo_cons_keep image b t hc hl hv hd] at h
            rcases ih b r h with h1 | h2
            · exact Or.inl h1
            · exact Or.inr ⟨List.mem_cons_of_mem c h2.1, h2.2⟩
          · rw [findGo_cons_displace image b t hc hl hv hd] at h
            rcases ih c r h with h1 | h2
            · exact Or.inr ⟨by rw [h1]; exact List.mem_cons_self c t, by rw [h1]; exact hc⟩
            · exact Or.inr ⟨List.mem_cons_of_mem c h2.1, h2.2⟩
        · rw [findGo_cons_noversion image b t hc hl (Bool.eq_false_iff.mpr hv)] at h
          rcases ih b r h with h1 | h2
          · exact Or.inl h1
          · exact Or.inr ⟨List.mem_cons_of_mem c h2.1, h2.2⟩
    · rw [findGo_cons_skip image (some b) t (Bool.eq_false_iff.mpr hc)] at h
      rcases ih b r h with h1 | h2
      · exact Or.inl h1
      · exact Or.inr ⟨List.mem_cons_of_mem c h2.1, h2.2⟩

/-- Once a running best exists, the loop returns some candidate. -/
theorem findGo_some_isSome (image : ImageName) :
    ∀ (l : List ImageName) (b : ImageName), ∃ r, findGo image (some b) l = some r := by
  intro l
  induction l with
  | nil => intro b; exact ⟨b, rfl⟩
  | cons c t ih =>
    intro b
    by_cases hc : image.Contains c = true
    · by_cases hl : c.GetTag = Latest
      · exact ⟨c, findGo_cons_latest image (some b) t hc hl⟩
      · by_cases hv : c.HasVersion = true
        · rcases hd : (b.HasVersion && (c.HasVersion && b.TagAsVersion.Less c.TagAsVersion)) with hf | ht
          · rcases ih b with ⟨r, hr⟩
            exact ⟨r, by rw [findGo_cons_keep image b t hc hl hv hd]; exact hr⟩
          · rcases ih c with ⟨r, hr⟩
            exact ⟨r, by rw [findGo_cons_displace image b t hc hl hv hd]; exact hr⟩
        · rcases ih b with ⟨r, hr⟩
          exact ⟨r, by rw [findGo_cons_noversion image b t hc hl (Bool.eq_false_iff.mpr hv)]; exact hr⟩
    · rcases ih b with ⟨r, hr⟩
      exact ⟨r, by rw [findGo_cons_skip image (some b) t (Bool.eq_false_iff.mpr hc)]; exact hr⟩

/-- The selection returns a candidate exactly when some candidate is in
range; whatever it returns is an in-range member of the list. -/
theorem findMostRecentTag_none_iff (image : ImageName) :
    ∀ l : List ImageName,
    (findMostRecentTag image l = none ↔ ∀ c ∈ l, image.Contains c = false) := by
  intro l
  induction l with
  | nil => simp [findMostRecentTag, findGo_nil]
  | cons c t ih =>
    rw [findMostRecentTag] at ih ⊢
    by_cases hc : image.Contains c = true
    · constructor
      · intro h
        by_cases hl : c.GetTag = Latest
        · rw [findGo_cons_latest image none t hc hl] at h
          cases h
        · rw [findGo_cons_adopt image t hc hl] at h
          rcases findGo_some_isSome image t c with ⟨r, hr⟩
          rw [hr] at h
          cases h
      · intro h
        have := h c (List.mem_cons_self c t)
        rw [hc] at this
        cases this
    · have hcf : image.Contains c = false := Bool.eq_false_iff.mpr hc
      rw [findGo_cons_skip image none t hcf]
      rw [ih]
      constructor
      · intro h d hd
        rcases List.mem_cons.mp hd with h1 | h2
        · rw [h1]; exact hcf
        · exact h d h2
      · intro h d hd
        exact h d (List.mem_cons_of_mem c hd)

/-- A returned candidate is an in-range member of the list. -/
theorem findMostRecentTag_mem (image : ImageName) :
    ∀ (l : List ImageName) (r : ImageName),
    findMostRecentTag image l = some r → r ∈ l ∧ image.Contains r = true := by
  intro l
  induction l with
  | nil => intro r h; cases h
  | cons c t ih =>
    intro r h
    rw [findMostRecentTag] at h
    by_cases hc : image.Contains c = true
    · by_cases hl : c.GetTag = Latest
      · rw [findGo_cons_latest image none t hc hl] at h
        have hrc : r = c := (Option.some_injective _ h).symm
        exact ⟨by rw [hrc]; exact List.mem_cons_self c t, by rw [hrc]; exact hc⟩
      · rw [findGo_cons_adopt image t hc hl] at h
        rcases findGo_some_mem image t c r h with h1 | h2
        · exact ⟨by rw [h1]; exact List.mem_cons_self c t, by rw [h1]; exact hc⟩
        · exact ⟨List.mem_cons_of_mem c h2.1, h2.2⟩
    · rw [findGo_cons_skip image none t (Bool.eq_false_iff.mpr hc)] at h
      rcases ih r h with ⟨h1, h2⟩
      exact ⟨List.mem_cons_of_mem c h1, h2⟩

theorem hasVersion_of_parse {c : ImageName} {v : Version}
    (h : parseVersion c.tag = some v) : c.HasVersion = true := by
  rw [ImageName.HasVersion, h]
  rfl

/-- When every in-range candidate carries a parseable version, the
version of the returned best bounds the running best and every in-range
candidate from above. -/
theorem findGo_ub (image : ImageName) :
    ∀ (l : List ImageName) (b r : ImageName) (vb : Version),
    parseVersion b.tag = some vb →
    (∀ c ∈ l, image.Contains c = true → c.HasVersion = true) →
    findGo image (some b) l = some r →
    ∃ vr, parseVersion r.tag = some vr ∧ vb.vle vr ∧
      ∀ c ∈ l, image.Contains c = true → ∀ vc, parseVersion c.tag = some vc → vc.vle vr := by
  intro l
  induction l with
  | nil =>
    intro b r vb hb _ h
    rw [findGo_nil] at h
    have hrb : r = b := (Option.some_injective _ h).symm
    exact ⟨vb, by rw [hrb]; exact hb, Version.vle_refl vb, by intro c hc; cases hc⟩
  | cons c t ih =>
    intro b r vb hb hpar h
    have hpart : ∀ d ∈ t, image.Contains d = true → d.HasVersion = true :=
      fun d hd => hpar d (List.mem_cons_of_mem c hd)
    by_cases hc : image.Contains c = true
    · have hv : c.HasVersion = true := hpar c (List.mem_cons_self c t) hc
      by_cases hl : c.GetTag = Latest
      · rw [hasVersion_of_latest hl] at hv
        cases hv
      · rcases hasVersion_iff.mp hv with ⟨vc, hvc⟩
        have hbv : b.HasVersion = true := hasVersion_of_parse hb
        cases hlt : vb.Less vc with
        | true =>
          have hd : (b.HasVersion && (c.HasVersion && b.TagAsVersion.Less c.TagAsVersion)) = true := by
            rw [hbv, hv, tagAsVersion_eq hb, tagAsVersion_eq hvc, hlt]
            rfl
          rw [findGo_cons_displace image b t hc hl hv hd] at h
          rcases ih c r vc hvc hpart h with ⟨vr, hrv, hvle, hbound⟩
          refine ⟨vr, hrv, Version.vle_trans (Version.less_to_vle hlt) hvle, ?_⟩
          intro d hd2 hcd vd hvd
          rcases List.mem_cons.mp hd2 with h1 | h2
          · rw [h1] at hvd
            rw [hvc] at hvd
            have : vc = vd := Option.some_injective _ hvd
            rw [← this]
            exact hvle
          · exact hbound d h2 hcd vd hvd
        | false =>
          have hd : (b.HasVersion && (c.HasVersion && b.TagAsVersion.Less c.TagAsVersion)) = false := by
            rw [tagAsVersion_eq hb, tagAsVersion_eq hvc, hlt]
            simp
          rw [findGo_cons_keep image b t hc hl hv hd] at h
          rcases ih b r vb hb hpart h with ⟨vr, hrv, hvle, hbound⟩
          refine ⟨vr, hrv, hvle, ?_⟩
          intro d hd2 hcd vd hvd
          rcases List.mem_cons.mp hd2 with h1 | h2
          · rw [h1] at hvd
            rw [hvc] at hvd
            have hvdc : vc = vd := Option.some_injective _ hvd
            rw [← hvdc]
            exact Version.vle_trans (Version.not_less_to_vle hlt) hvle
          · exact hbound d h2 hcd vd hvd
    · rw [findGo_cons_skip image (some b) t (Bool.eq_false_iff.mpr hc)] at h
      rcases ih b r vb hb hpart h with ⟨vr, hrv, hvle, hbound⟩
      refine ⟨vr, hrv, hvle, ?_⟩
      intro d hd2 hcd vd hvd
      rcases List.mem_cons.mp hd2 with h1 | h2
      · rw [h1] at hcd
        rw [hcd] at hc
        exact absurd rfl hc
      · exact hbound d h2 hcd vd hvd

/-- When every in-range candidate carries a parseable version, the
returned best's version is maximal among in-range candidates. -/
theorem findMostRecentTag_ub (image : ImageName) :
    ∀ (l : List ImageName) (r : ImageName),
    (∀ c ∈ l, image.Contains c = true → c.HasVersion = true) →
    findMostRecentTag image l = some r →
    ∃ vr, parseVersion r.tag = some vr ∧
      ∀ c ∈ l, image.Contains c = true → ∀ vc, parseVersion c.tag = some vc → vc.vle vr := by
  intro l
  induction l with
  | nil => intro r _ h; cases h
  | cons c t ih =>
    intro r hpar h
    rw [findMostRecentTag] at h
    have hpart : ∀ d ∈ t, image.Contains d = true → d.HasVersion = true :=
      fun d hd => hpar d (List.mem_cons_of_mem c hd)
    by_cases hc : image.Contains c = true
    · have hv : c.HasVersion = true := hpar c (List.mem_cons_self c t) hc
      by_cases hl : c.GetTag = Latest
      · rw [hasVersion_of_latest hl] at hv
        cases hv
      · rcases hasVersion_iff.mp hv with ⟨vc, hvc⟩
        rw [findGo_cons_adopt image t hc hl] at h
        rcases findGo_ub image t c r vc hvc hpart h with ⟨vr, hrv, hvle, hbound⟩
        refine ⟨vr, hrv, ?_⟩
        intro d hd2 hcd vd hvd
        rcases List.mem_cons.mp hd2 with h1 | h2
        · rw [h1] at hvd
          rw [hvc] at hvd
          have hvdc : vc = vd := Option.some_injective _ hvd
          rw [← hvdc]
          exact hvle
        · exact hbound d h2 hcd vd hvd
    · rw [findGo_cons_skip image none t (Bool.eq_false_iff.mpr hc)] at h
      rcases ih r hpart h with ⟨vr, hrv, hbound⟩
      refine ⟨vr, hrv, ?_⟩
      intro d hd2 hcd vd hvd
      rcases List.mem_cons.mp hd2 with h1 | h2
      · rw [h1] at hcd
        rw [hcd] at hc
        exact absurd rfl hc
      · exact hbound d h2 hcd vd hvd

theorem belowOpt_some {v vm : Version} : belowOpt (some v) vm = v.Less vm := rfl

/-- Invariant of the selection loop: when no remaining in-range
candidate is tagged latest, every remaining in-range candidate other
than `m` parses strictly below `m`'s version, the running best is
parseable, and either the best already is `m` or `m` is still to come
and the best parses strictly below it, then the loop ends on `m`. -/
theorem findGo_max (image m : ImageName) (vm : Version)
    (hcm : image.Contains m = true) (hvm : parseVersion m.tag = some vm) :
    ∀ (l : List ImageName) (b : ImageName) (vb : Version),
    parseVersion b.tag = some vb →
    (∀ c ∈ l, image.Contains c = true → c.GetTag ≠ Latest) →
    (∀ c ∈ l, image.Contains c = true → c ≠ m → belowOpt (parseVersion c.tag) vm = true) →
    (b = m ∨ (vb.Less vm = true ∧ m ∈ l)) →
    findGo image (some b) l = some m := by
  intro l
  induction l with
  | nil =>
    intro b vb hb _ _ hinv
    rcases hinv with h1 | h2
    · rw [findGo_nil, h1]
    · cases h2.2
  | cons c t ih =>
    intro b vb hb hnl hmax hinv
    have hnlt : ∀ d ∈ t, image.Contains d = true → d.GetTag ≠ Latest :=
      fun d hd => hnl d (List.mem_cons_of_mem c hd)
    have hmaxt : ∀ d ∈ t, image.Contains d = true → d ≠ m →
        belowOpt (parseVersion d.tag) vm = true :=
      fun d hd => hmax d (List.mem_cons_of_mem c hd)
    by_cases hc : image.Contains c = true
    · have hl : c.GetTag ≠ Latest := hnl c (List.mem_cons_self c t) hc
      by_cases hv : c.HasVersion = true
      · rcases hasVersion_iff.mp hv with ⟨vc, hvc⟩
        have hbv : b.HasVersion = true := hasVersion_of_parse hb
        by_cases hceqm : c = m
        · rw [hceqm] at hvc
          have hvcm : vc = vm := Option.some_injective _ (by rw [← hvc, hvm])
          rcases hinv with h1 | h2
          · have hvbm : vb = vm := by
              rw [h1] at hb
              exact Option.some_injective _ (by rw [← hb, hvm])
            have hd : (b.HasVersion && (c.HasVersion && b.TagAsVersion.Less c.TagAsVersion)) = false := by
              rw [tagAsVersion_eq hb]
              rw [hceqm, tagAsVersion_eq hvm, hvbm, Version.less_irrefl]
              simp
            rw [findGo_cons_keep image b t hc hl hv hd]
            exact ih b vb hb hnlt hmaxt (Or.inl h1)
          · have hd : (b.HasVersion && (c.HasVersion && b.TagAsVersion.Less c.TagAsVersion)) = true := by
              rw [hceqm, tagAsVersion_eq hvm, hbv, tagAsVersion_eq hb]
              rw [hceqm] at hv
              rw [hv, h2.1]
              rfl
            rw [findGo_cons_displace image b t hc hl hv hd]
            exact ih c vc (by rw [hceqm]; exact hvc) hnlt hmaxt (Or.inl hceqm)
        · have hcvm : vc.Less vm = true := by
            have := hmax c (List.mem_cons_self c t) hc hceqm
            rw [hvc, belowOpt_some] at this
            exact this
          rcases hinv with h1 | h2
          · have hvbm : vb = vm := by
              rw [h1] at hb
              exact Option.some_injective _ (by rw [← hb, hvm])
            have hd : (b.HasVersion && (c.HasVersion && b.TagAsVersion.Less c.TagAsVersion)) = false := by
              rw [tagAsVersion_eq hb, tagAsVersion_eq hvc, hvbm, Version.less_asymm hcvm]
              simp
            rw [findGo_cons_keep image b t hc hl hv hd]
            exact ih b vb hb hnlt hmaxt (Or.inl h1)
          · have hmt : m ∈ t := by
              rcases List.mem_cons.mp h2.2 with hx | hx
              · exact absurd hx.symm hceqm
              · exact hx
            cases hlt : vb.Less vc with
            | true =>
              have hd : (b.HasVersion && (c.HasVersion && b.TagAsVersion.Less c.TagAsVersion)) = true := by
                rw [hbv, hv, tagAsVersion_eq hb, tagAsVersion_eq hvc, hlt]
                rfl
              rw [findGo_cons_displace image b t hc hl hv hd]
              exact ih c vc hvc hnlt hmaxt (Or.inr ⟨hcvm, hmt⟩)
            | false =>
              have hd : (b.HasVersion && (c.HasVersion && b.TagAsVersion.Less c.TagAsVersion)) = false := by
                rw [tagAsVersion_eq hb, tagAsVersion_eq hvc, hlt]
                simp
              rw [findGo_cons_keep image b t hc hl hv hd]
              exact ih b vb hb hnlt hmaxt (Or.inr ⟨h2.1, hmt⟩)
      · have hvf : c.HasVersion = false := Bool.eq_false_iff.mpr hv
        rw [findGo_cons_noversion image b t hc hl hvf]
        refine ih b vb hb hnlt hmaxt ?_
        rcases hinv with h1 | h2
        · exact Or.inl h1
        · refine Or.inr ⟨h2.1, ?_⟩
          rcases List.mem_cons.mp h2.2 with hx | hx
          · rw [hx] at hvm
            rw [hasVersion_of_parse hvm] at hvf
            cases hvf
          · exact hx
    · have hcf : image.Contains c = false := Bool.eq_false_iff.mpr hc
      rw [findGo_cons_skip image (some b) t hcf]
      refine ih b vb hb hnlt hmaxt ?_
      rcases hinv with h1 | h2
      · exact Or.inl h1
      · refine Or.inr ⟨h2.1, ?_⟩
        rcases List.mem_cons.mp h2.2 with hx | hx
        · rw [hx] at hcm
          rw [hcm] at hcf
          cases hcf
        · exact hx

theorem firstContainedParseable_cons_skip (image : ImageName) {c : ImageName}
    (t : List ImageName) (hc : image.Contains c = false) :
    firstContainedParseable image (c :: t) = firstContainedParseable image t := by
  simp only [firstContainedParseable, firstContained_cons_skip image t hc]

theorem firstContainedParseable_cons_hit (image : ImageName) {c : ImageName}
    (t : List ImageName) (hc : image.Contains c = true) :
    firstContainedParseable image (c :: t) = c.HasVersion := by
  simp only [firstContainedParseable, firstContained_cons_hit image t hc]

/-! Evaluation lemmas for the resolution control flow. -/

theorem resolveTag_exact (image : ImageName) (force : Bool)
    (localSrc remoteSrc : Except String (List ImageName))
    (h : (image.HasVersionRange || image.All) = false) :
    resolveTag image force localSrc remoteSrc = (false, false, .ok image.tag) := by
  simp [resolveTag, h]

theorem resolveTag_ranged_remote (image : ImageName) (force : Bool)
    (localSrc remoteSrc : Except String (List ImageName))
    (hr : (image.HasVersionRange || image.All) = true)
    (hcond : (((listOrNil localSrc).1.length == 0) || force) = true) :
    resolveTag image force localSrc remoteSrc =
      (true, true, resolveFrom image (listOrNil remoteSrc)) := by
  simp [resolveTag, hr, hcond]

theorem resolveTag_ranged_local (image : ImageName) (force : Bool)
    (localSrc remoteSrc : Except String (List ImageName))
    (hr : (image.HasVersionRange || image.All) = true)
    (hcond : (((listOrNil localSrc).1.length == 0) || force) = false) :
    resolveTag image force localSrc remoteSrc =
      (true, false, resolveFrom image (listOrNil localSrc)) := by
  simp only [resolveTag, hr, if_true]
  rw [if_neg]
  rw [hcond]
  exact Bool.false_ne_true

theorem pullDockerImage_eq_error (image : ImageName) (force : Bool)
    (localSrc remoteSrc : Except String (List ImageName))
    (streamErr pullErr : Option String) (uL uR : Bool) (e : String)
    (h : resolveTag image force localSrc remoteSrc = (uL, uR, Except.error e)) :
    PullDockerImage image force localSrc remoteSrc streamErr pullErr = ⟨uL, uR, Except.error e⟩ := by
  simp only [PullDockerImage]
  rw [h]

theorem pullDockerImage_eq_ok (image : ImageName) (force : Bool)
    (localSrc remoteSrc : Except String (List ImageName))
    (streamErr pullErr : Option String) (uL uR : Bool) (tag : String)
    (h : resolveTag image force localSrc remoteSrc = (uL, uR, Except.ok tag)) :
    PullDockerImage image force localSrc remoteSrc streamErr pullErr =
      ⟨uL, uR, pullResult image tag streamErr pullErr⟩ := by
  simp only [PullDockerImage]
  rw [h]

/-! The claims. -/

/-- C1, counterexample: a candidate list whose in-range candidates
include a parseable strict maximum (`a:1.0.0`) and no latest, yet
`findMostRecentTag` returns the unparseable first-seen candidate
`a:zzz`, not the one with the strictly greatest parsed version: once an
unparseable candidate is adopted as best, line 246's `img.HasVersion()`
conjunct keeps any parseable candidate from displacing it. -/
theorem findMostRecentTag_unparseable_shadows_greatest :
    (⟨"a", "1.0.0"⟩ : ImageName) ∈ ([⟨"a", "zzz"⟩, ⟨"a", "1.0.0"⟩] : List ImageName) ∧
    ImageName.Contains ⟨"a", "*"⟩ ⟨"a", "1.0.0"⟩ = true ∧
    parseVersion "1.0.0" = some ⟨1, 0, 0⟩ ∧
    (∀ c ∈ ([⟨"a", "zzz"⟩, ⟨"a", "1.0.0"⟩] : List ImageName),
      ImageName.Contains ⟨"a", "*"⟩ c = true → c.GetTag ≠ Latest) ∧
    (∀ c ∈ ([⟨"a", "zzz"⟩, ⟨"a", "1.0.0"⟩] : List ImageName),
      ImageName.Contains ⟨"a", "*"⟩ c = true → c ≠ ⟨"a", "1.0.0"⟩ →
        belowOpt (parseVersion c.tag) ⟨1, 0, 0⟩ = true) ∧
    findMostRecentTag ⟨"a", "*"⟩ [⟨"a", "zzz"⟩, ⟨"a", "1.0.0"⟩] = some ⟨"a", "zzz"⟩ ∧
    (⟨"a", "zzz"⟩ : ImageName) ≠ ⟨"a", "1.0.0"⟩ ∧
    ImageName.HasVersion ⟨"a", "zzz"⟩ = false := by
  decide

/-- C1 (amended): for every candidate list containing an in-range
candidate `m` whose parsed version is strictly greatest among the
in-range candidates, with no in-range candidate tagged latest, and
whose first in-range candidate carries a parseable version,
`findMostRecentTag` returns `m`. (Amendment: the first-in-range
candidate must itself be parseable; the counterexample shows an
unparseable first-seen in-range candidate is never displaced.) -/
theorem findMostRecentTag_selects_greatest (image m : ImageName) (l : List ImageName)
    (vm : Version) (hm : m ∈ l) (hcm : image.Contains m = true)
    (hvm : parseVersion m.tag = some vm)
    (hnl : ∀ c ∈ l, image.Contains c = true → c.GetTag ≠ Latest)
    (hfirst : firstContainedParseable image l = true)
    (hmax : ∀ c ∈ l, image.Contains c = true → c ≠ m →
      belowOpt (parseVersion c.tag) vm = true) :
    findMostRecentTag image l = some m := by
  induction l with
  | nil => cases hm
  | cons c t ih =>
    have hnlt : ∀ d ∈ t, image.Contains d = true → d.GetTag ≠ Latest :=
      fun d hd => hnl d (List.mem_cons_of_mem c hd)
    have hmaxt : ∀ d ∈ t, image.Contains d = true → d ≠ m →
        belowOpt (parseVersion d.tag) vm = true :=
      fun d hd => hmax d (List.mem_cons_of_mem c hd)
    by_cases hc : image.Contains c = true
    · have hl : c.GetTag ≠ Latest := hnl c (List.mem_cons_self c t) hc
      have hv : c.HasVersion = true := by
        rw [firstContainedParseable_cons_hit image t hc] at hfirst
        exact hfirst
      rcases hasVersion_iff.mp hv with ⟨vc, hvc⟩
      rw [findMostRecentTag, findGo_cons_adopt image t hc hl]
      apply findGo_max image m vm hcm hvm t c vc hvc hnlt hmaxt
      by_cases hceqm : c = m
      · exact Or.inl hceqm
      · have hcvm : vc.Less vm = true := by
          have := hmax c (List.mem_cons_self c t) hc hceqm
          rw [hvc, belowOpt_some] at this
          exact this
        have hmt : m ∈ t := by
          rcases List.mem_cons.mp hm with hx | hx
          · exact absurd hx.symm hceqm
          · exact hx
        exact Or.inr ⟨hcvm, hmt⟩
    · have hcf : image.Contains c = false := Bool.eq_false_iff.mpr hc
      have hmt : m ∈ t := by
        rcases List.mem_cons.mp hm with hx | hx
        · rw [hx] at hcm
          rw [hcm] at hcf
          cases hcf
        · exact hx
      have hft : firstContainedParseable image t = true := by
        rw [firstContainedParseable_cons_skip image t hcf] at hfirst
        exact hfirst
      rw [findMostRecentTag, findGo_cons_skip image none t hcf]
      exact ih hmt hnlt hft hmaxt

/-- Witness for C1 (amended) at a concrete list where the first
in-range candidate parses. -/
theorem findMostRecentTag_selects_greatest_witness :
    findMostRecentTag ⟨"a", "*"⟩ [⟨"a", "1.0.0"⟩, ⟨"a", "2.0.0"⟩, ⟨"a", "zzz"⟩]
      = some ⟨"a", "2.0.0"⟩ :=
  findMostRecentTag_selects_greatest ⟨"a", "*"⟩ ⟨"a", "2.0.0"⟩
    [⟨"a", "1.0.0"⟩, ⟨"a", "2.0.0"⟩, ⟨"a", "zzz"⟩] ⟨2, 0, 0⟩
    (by decide) (by decide) (by decide) (by decide) (by decide) (by decide)

/-- C3, counterexample: two permutations of the same candidate multiset
on which `findMostRecentTag` returns different tags, although no two
in-range candidates have equal parsed versions — the unparseable
in-range candidate `a:zzz` makes the result order-dependent. -/
theorem findMostRecentTag_order_dependent_on_unparseable :
    ([⟨"a", "zzz"⟩, ⟨"a", "1.0.0"⟩] : List ImageName).Perm [⟨"a", "1.0.0"⟩, ⟨"a", "zzz"⟩] ∧
    (∀ c ∈ ([⟨"a", "zzz"⟩, ⟨"a", "1.0.0"⟩] : List ImageName),
      ∀ d ∈ ([⟨"a", "zzz"⟩, ⟨"a", "1.0.0"⟩] : List ImageName),
      ImageName.Contains ⟨"a", "*"⟩ c = true → ImageName.Contains ⟨"a", "*"⟩ d = true →
      c ≠ d → (c.HasVersion = true → d.HasVersion = true →
        parseVersion c.tag ≠ parseVersion d.tag)) ∧
    findMostRecentTag ⟨"a", "*"⟩ [⟨"a", "zzz"⟩, ⟨"a", "1.0.0"⟩] = some ⟨"a", "zzz"⟩ ∧
    findMostRecentTag ⟨"a", "*"⟩ [⟨"a", "1.0.0"⟩, ⟨"a", "zzz"⟩] = some ⟨"a", "1.0.0"⟩ ∧
    some (⟨"a", "zzz"⟩ : ImageName) ≠ some (⟨"a", "1.0.0"⟩ : ImageName) := by
  refine ⟨List.Perm.swap (⟨"a", "1.0.0"⟩ : ImageName) ⟨"a", "zzz"⟩ [], ?_, by decide, by decide, by decide⟩
  decide

/-- C3 (amended): for a fixed image, `findMostRecentTag` returns the
same result on every permutation of the candidate list, provided every
in-range candidate carries a parseable version and no two distinct
in-range candidates have equal parsed versions. (Amendment: beyond the
claim's equal-version exception, in-range candidates without a
parseable version also make the result order-dependent, per the
counterexample; the tie exception is subsumed by requiring distinct
parsed versions.) -/
theorem findMostRecentTag_perm_invariant (image : ImageName) (l1 l2 : List ImageName)
    (hperm : l1.Perm l2)
    (hpar : ∀ c ∈ l1, image.Contains c = true → c.HasVersion = true)
    (hdist : ∀ c ∈ l1, ∀ d ∈ l1, image.Contains c = true → image.Contains d = true →
      parseVersion c.tag = parseVersion d.tag → c = d) :
    findMostRecentTag image l1 = findMostRecentTag image l2 := by
  have hmem : ∀ x : ImageName, x ∈ l1 ↔ x ∈ l2 := fun x => hperm.mem_iff
  have hpar2 : ∀ c ∈ l2, image.Contains c = true → c.HasVersion = true :=
    fun c hc => hpar c ((hmem c).mpr hc)
  cases h1 : findMostRecentTag image l1 with
  | none =>
    have hno := (findMostRecentTag_none_iff image l1).mp h1
    have h2 : findMostRecentTag image l2 = none :=
      (findMostRecentTag_none_iff image l2).mpr (fun c hc => hno c ((hmem c).mpr hc))
    rw [h2]
  | some r1 =>
    cases h2 : findMostRecentTag image l2 with
    | none =>
      have hno := (findMostRecentTag_none_iff image l2).mp h2
      have hm1 := findMostRecentTag_mem image l1 r1 h1
      have := hno r1 ((hmem r1).mp hm1.1)
      rw [hm1.2] at this
      cases this
    | some r2 =>
      have hm1 := findMostRecentTag_mem image l1 r1 h1
      have hm2 := findMostRecentTag_mem image l2 r2 h2
      have hr2l1 : r2 ∈ l1 := (hmem r2).mpr hm2.1
      have hr1l2 : r1 ∈ l2 := (hmem r1).mp hm1.1
      rcases findMostRecentTag_ub image l1 r1 hpar h1 with ⟨v1, hv1, hb1⟩
      rcases findMostRecentTag_ub image l2 r2 hpar2 h2 with ⟨v2, hv2, hb2⟩
      have h12 : v2.vle v1 := hb1 r2 hr2l1 hm2.2 v2 hv2
      have h21 : v1.vle v2 := hb2 r1 hr1l2 hm1.2 v1 hv1
      have hv12 : v1 = v2 := Version.vle_antisymm h21 h12
      have hr12 : r1 = r2 :=
        hdist r1 hm1.1 r2 hr2l1 hm1.2 hm2.2 (by rw [hv1, hv2, hv12])
      rw [hr12]

/-- Witness for C3 (amended) on a transposed two-element list. -/
theorem findMostRecentTag_perm_invariant_witness :
    findMostRecentTag ⟨"a", "*"⟩ [⟨"a", "1.0.0"⟩, ⟨"a", "2.0.0"⟩]
      = findMostRecentTag ⟨"a", "*"⟩ [⟨"a", "2.0.0"⟩, ⟨"a", "1.0.0"⟩] :=
  findMostRecentTag_perm_invariant ⟨"a", "*"⟩
    [⟨"a", "1.0.0"⟩, ⟨"a", "2.0.0"⟩] [⟨"a", "2.0.0"⟩, ⟨"a", "1.0.0"⟩]
    (List.Perm.swap (⟨"a", "2.0.0"⟩ : ImageName) ⟨"a", "1.0.0"⟩ []) (by decide) (by decide)

/-- The selection loop returns the (unique) in-range candidate carrying
the literal latest tag no matter the running best, since names of
in-range candidates all equal the image's and the loop short-circuits
at the first in-range latest. -/
theorem findGo_latest (image c : ImageName) (hc : image.Contains c = true)
    (hlt : c.tag = Latest) :
    ∀ (l : List ImageName) (img : Option ImageName), c ∈ l → findGo image img l = some c := by
  intro l
  induction l with
  | nil => intro img hm; cases hm
  | cons d t ih =>
    intro img hm
    by_cases hd : image.Contains d = true
    · by_cases hl : d.GetTag = Latest
      · rw [findGo_cons_latest image img t hd hl]
        have hn : d.name = c.name := (contains_name_eq hd).symm.trans (contains_name_eq hc)
        have ht : d.tag = c.tag := by
          have h1 : d.tag = Latest := hl
          rw [h1, hlt]
        have hdc : d = c := by
          have e1 : d = (⟨d.name, d.tag⟩ : ImageName) := rfl
          rw [e1, hn, ht]
        rw [hdc]
      · have hdc : c ≠ d := by
          intro he
          rw [← he] at hl
          exact hl hlt
        have hmt : c ∈ t := by
          rcases List.mem_cons.mp hm with hx | hx
          · exact absurd hx hdc
          · exact hx
        cases img with
        | none =>
          rw [findGo_cons_adopt image t hd hl]
          exact ih (some d) hmt
        | some b =>
          by_cases hv : d.HasVersion = true
          · cases hcond : (b.HasVersion && (d.HasVersion && b.TagAsVersion.Less d.TagAsVersion)) with
            | true =>
              rw [findGo_cons_displace image b t hd hl hv hcond]
              exact ih (some d) hmt
            | false =>
              rw [findGo_cons_keep image b t hd hl hv hcond]
              exact ih (some b) hmt
          · rw [findGo_cons_noversion image b t hd hl (Bool.eq_false_iff.mpr hv)]
            exact ih (some b) hmt
    · have hdc : c ≠ d := by
        intro he
        rw [← he] at hd
        exact hd hc
      have hmt : c ∈ t := by
        rcases List.mem_cons.mp hm with hx | hx
        · exact absurd hx hdc
        · exact hx
      rw [findGo_cons_skip image img t (Bool.eq_false_iff.mpr hd)]
      exact ih img hmt

/-- C4: for every candidate list containing an in-range candidate whose
tag is the literal latest, `findMostRecentTag` returns that candidate,
regardless of the versions of any other candidates. -/
theorem findMostRecentTag_latest_wins (image c : ImageName) (l : List ImageName)
    (hm : c ∈ l) (hc : image.Contains c = true) (hlt : c.tag = Latest) :
    findMostRecentTag image l = some c :=
  findGo_latest image c hc hlt l none hm

/-- Witness for C4: latest beats a numerically larger version. -/
theorem findMostRecentTag_latest_wins_witness :
    findMostRecentTag ⟨"a", "*"⟩ [⟨"a", "9.9.9"⟩, ⟨"a", "latest"⟩, ⟨"a", "2.0.0"⟩]
      = some ⟨"a", "latest"⟩ :=
  findMostRecentTag_latest_wins ⟨"a", "*"⟩ ⟨"a", "latest"⟩
    [⟨"a", "9.9.9"⟩, ⟨"a", "latest"⟩, ⟨"a", "2.0.0"⟩] (by decide) (by decide) (by decide)

/-- A `PullDockerImage` outcome computed from a known gathered list. -/
theorem pullDockerImage_of_resolve (image : ImageName) (force : Bool)
    (localSrc remoteSrc : Except String (List ImageName))
    (streamErr pullErr : Option String) (uL uR : Bool) (p : List ImageName × Option String)
    (h : resolveTag image force localSrc remoteSrc = (uL, uR, resolveFrom image p)) :
    PullDockerImage image force localSrc remoteSrc streamErr pullErr =
      ⟨uL, uR, pullFrom image p streamErr pullErr⟩ := by
  cases hres : resolveFrom image p with
  | error e =>
    rw [hres] at h
    rw [pullDockerImage_eq_error image force localSrc remoteSrc streamErr pullErr uL uR e h]
    simp only [pullFrom, hres]
  | ok tag =>
    rw [hres] at h
    rw [pullDockerImage_eq_ok image force localSrc remoteSrc streamErr pullErr uL uR tag h]
    simp only [pullFrom, hres]

/-- C2, counterexample: for the wildcard image `a:*` with `force =
false` and a failing local listing, `PullDockerImage` does consult the
remote source and succeeds from it — the local listing failure is not
surfaced and is not terminal. -/
theorem pullDockerImage_local_error_consults_remote :
    (PullDockerImage ⟨"a", "*"⟩ false (.error "local boom")
        (.ok [⟨"a", "2.0.0"⟩]) none none).usedRemote = true ∧
    (PullDockerImage ⟨"a", "*"⟩ false (.error "local boom")
        (.ok [⟨"a", "2.0.0"⟩]) none none).result = .ok ⟨"a", "2.0.0"⟩ ∧
    (PullDockerImage ⟨"a", "*"⟩ false (.error "local boom")
        (.ok [⟨"a", "2.0.0"⟩]) none none).result ≠ .error "local boom" := by
  decide

/-- C2 (amended): for a ranged or wildcard image, a local listing
failure leaves the local list nil, so the remote source is always
consulted (whatever `force` is) and its outcome replaces both the list
and the error: the run is identical to one whose local listing returned
an empty list, and an error is surfaced only when the remote listing
itself fails, in which case it is the remote error. (Amendment: the
local error is discarded rather than surfaced, and the remote consult
happens on every local failure, not only under `force`.) -/
theorem pullDockerImage_local_error_replaced_by_remote (image : ImageName) (force : Bool)
    (e : String) (remoteSrc : Except String (List ImageName))
    (streamErr pullErr : Option String)
    (hr : (image.HasVersionRange || image.All) = true) :
    PullDockerImage image force (.error e) remoteSrc streamErr pullErr =
      PullDockerImage image force (.ok []) remoteSrc streamErr pullErr ∧
    (PullDockerImage image force (.error e) remoteSrc streamErr pullErr).usedRemote = true ∧
    (∀ e2, remoteSrc = .error e2 →
      (PullDockerImage image force (.error e) remoteSrc streamErr pullErr).result =
        .error e2) := by
  have hcondE : (((listOrNil (Except.error e : Except String (List ImageName))).1.length == 0)
      || force) = true := by
    simp [listOrNil]
  have hcondO : (((listOrNil (Except.ok ([] : List ImageName))).1.length == 0)
      || force) = true := by
    simp [listOrNil]
  have h1 := resolveTag_ranged_remote image force (.error e) remoteSrc hr hcondE
  have h2 := resolveTag_ranged_remote image force (.ok []) remoteSrc hr hcondO
  have p1 := pullDockerImage_of_resolve image force (.error e) remoteSrc streamErr pullErr
    true true (listOrNil remoteSrc) h1
  have p2 := pullDockerImage_of_resolve image force (.ok []) remoteSrc streamErr pullErr
    true true (listOrNil remoteSrc) h2
  refine ⟨by rw [p1, p2], by rw [p1], ?_⟩
  intro e2 he2
  rw [he2] at p1 ⊢
  rw [p1]
  rfl

/-- Witness for C2 (amended) on the wildcard image with a failing local
listing and a one-candidate remote listing. -/
theorem pullDockerImage_local_error_replaced_by_remote_witness :
    (PullDockerImage ⟨"a", "*"⟩ false (.error "boom") (.ok [⟨"a", "2.0.0"⟩]) none none =
      PullDockerImage ⟨"a", "*"⟩ false (.ok []) (.ok [⟨"a", "2.0.0"⟩]) none none ∧
    (PullDockerImage ⟨"a", "*"⟩ false (.error "boom")
        (.ok [⟨"a", "2.0.0"⟩]) none none).usedRemote = true ∧
    (∀ e2, (Except.ok [⟨"a", "2.0.0"⟩] : Except String (List ImageName)) = .error e2 →
      (PullDockerImage ⟨"a", "*"⟩ false (.error "boom")
          (.ok [⟨"a", "2.0.0"⟩]) none none).result = .error e2)) :=
  pullDockerImage_local_error_replaced_by_remote ⟨"a", "*"⟩ false "boom"
    (.ok [⟨"a", "2.0.0"⟩]) none none (by decide)

/-- C5: for an image whose tag is neither a version range nor the
wildcard, `PullDockerImage` consults no listing source and pulls with
the image's own tag unchanged; on a clean pull it returns the freshly
built reference with that tag. -/
theorem pullDockerImage_exact_tag_no_listing (image : ImageName) (force : Bool)
    (localSrc remoteSrc : Except String (List ImageName))
    (streamErr pullErr : Option String)
    (h : (image.HasVersionRange || image.All) = false) :
    PullDockerImage image force localSrc remoteSrc streamErr pullErr =
      ⟨false, false, pullResult image image.tag streamErr pullErr⟩ ∧
    (streamErr = none → pullErr = none →
      (PullDockerImage image force localSrc remoteSrc streamErr pullErr).result =
        .ok (ImageName.New image.NameWithRegistry image.tag)) := by
  have h1 := resolveTag_exact image force localSrc remoteSrc h
  have p := pullDockerImage_eq_ok image force localSrc remoteSrc streamErr pullErr
    false false image.tag h1
  refine ⟨p, ?_⟩
  intro hs hp
  rw [p, hs, hp]
  rfl

/-- Witness for C5: the exact tag `3.2` with failing listing sources. -/
theorem pullDockerImage_exact_tag_no_listing_witness :
    (PullDockerImage ⟨"a", "3.2"⟩ true (.error "x") (.error "y") none none =
      ⟨false, false, pullResult ⟨"a", "3.2"⟩ "3.2" none none⟩ ∧
    ((none : Option String) = none → (none : Option String) = none →
      (PullDockerImage ⟨"a", "3.2"⟩ true (.error "x") (.error "y") none none).result =
        .ok (ImageName.New (ImageName.NameWithRegistry ⟨"a", "3.2"⟩) "3.2"))) :=
  pullDockerImage_exact_tag_no_listing ⟨"a", "3.2"⟩ true (.error "x") (.error "y")
    none none (by decide)

/-- C6: for a ranged or wildcard image, when the local listing returned
an empty list or `force` is set, the remote list replaces the local one:
the run is identical to one whose local listing returned an empty list,
so no local candidate can be selected, and the remote source is
consulted. -/
theorem pullDockerImage_remote_replaces_local (image : ImageName) (force : Bool)
    (llist : List ImageName) (remoteSrc : Except String (List ImageName))
    (streamErr pullErr : Option String)
    (hr : (image.HasVersionRange || image.All) = true)
    (hcond : llist = [] ∨ force = true) :
    PullDockerImage image force (.ok llist) remoteSrc streamErr pullErr =
      PullDockerImage image force (.ok []) remoteSrc streamErr pullErr ∧
    (PullDockerImage image force (.ok llist) remoteSrc streamErr pullErr).usedRemote = true := by
  have hcondL : (((listOrNil (Except.ok llist)).1.length == 0) || force) = true := by
    rcases hcond with h | h
    · rw [h]
      simp [listOrNil]
    · rw [h]
      simp
  have hcondO : (((listOrNil (Except.ok ([] : List ImageName))).1.length == 0)
      || force) = true := by
    simp [listOrNil]
  have h1 := resolveTag_ranged_remote image force (.ok llist) remoteSrc hr hcondL
  have h2 := resolveTag_ranged_remote image force (.ok []) remoteSrc hr hcondO
  have p1 := pullDockerImage_of_resolve image force (.ok llist) remoteSrc streamErr pullErr
    true true (listOrNil remoteSrc) h1
  have p2 := pullDockerImage_of_resolve image force (.ok []) remoteSrc streamErr pullErr
    true true (listOrNil remoteSrc) h2
  exact ⟨by rw [p1, p2], by rw [p1]⟩

/-- Witness for C6, the spec's scenario 6: `force = true`, local list
`a:1.0.0`, remote list `a:2.0.0`, wildcard image; the remote list is
used and `a:2.0.0` is returned. -/
theorem pullDockerImage_remote_replaces_local_witness :
    (PullDockerImage ⟨"a", "*"⟩ true (.ok [⟨"a", "1.0.0"⟩]) (.ok [⟨"a", "2.0.0"⟩]) none none =
      PullDockerImage ⟨"a", "*"⟩ true (.ok []) (.ok [⟨"a", "2.0.0"⟩]) none none ∧
    (PullDockerImage ⟨"a", "*"⟩ true (.ok [⟨"a", "1.0.0"⟩])
        (.ok [⟨"a", "2.0.0"⟩]) none none).usedRemote = true) ∧
    (PullDockerImage ⟨"a", "*"⟩ true (.ok [⟨"a", "1.0.0"⟩])
        (.ok [⟨"a", "2.0.0"⟩]) none none).result = .ok ⟨"a", "2.0.0"⟩ :=
  ⟨pullDockerImage_remote_replaces_local ⟨"a", "*"⟩ true [⟨"a", "1.0.0"⟩]
      (.ok [⟨"a", "2.0.0"⟩]) none none (by decide) (Or.inr rfl),
    by decide⟩

/-- C7, counterexample: for the wildcard image `a:*` with empty local
and remote listings, `PullDockerImage` neither errors nor returns a
concrete tag: it succeeds with the original unresolved wildcard tag
`*`, and no distinguishable "no candidates" condition is raised. -/
theorem pullDockerImage_no_candidates_returns_original_tag :
    ImageName.All ⟨"a", "*"⟩ = true ∧
    (PullDockerImage ⟨"a", "*"⟩ false (.ok []) (.ok []) none none).result =
      .ok ⟨"a", "*"⟩ ∧
    (ImageName.mk "a" "*").tag = (ImageName.mk "a" "*").tag := by
  decide

/-- C7 (amended): for a ranged or wildcard image whose chosen candidate
list — the remote list when the local list is empty or `force` is set,
the local list otherwise — contains no applicable candidate, the
resolution silently keeps the image's own (still ranged or wildcard)
tag: a clean pull succeeds and returns a reference carrying the
original tag, with no error and no separate "no candidates"
condition. (Amendment: the claim's promised "concrete reference or
error" does not hold — the original tag is returned inside a
successful result.) -/
theorem pullDockerImage_no_candidates_falls_back (image : ImageName) (force : Bool)
    (llist rlist : List ImageName)
    (hr : (image.HasVersionRange || image.All) = true)
    (hchosen : findMostRecentTag image (chosenList force llist rlist) = none) :
    (PullDockerImage image force (.ok llist) (.ok rlist) none none).result =
      .ok (ImageName.New image.NameWithRegistry image.tag) := by
  cases hcond : (((listOrNil (Except.ok llist)).1.length == 0) || force) with
  | true =>
    have hch : chosenList force llist rlist = rlist := by
      have hc2 : (llist.length == 0 || force) = true := hcond
      simp only [chosenList, hc2, if_true]
    rw [hch] at hchosen
    have h1 := resolveTag_ranged_remote image force (.ok llist) (.ok rlist) hr hcond
    have p1 := pullDockerImage_of_resolve image force (.ok llist) (.ok rlist) none none
      true true (listOrNil (.ok rlist)) h1
    rw [p1]
    simp only [pullFrom, resolveFrom, listOrNil, hchosen]
    rfl
  | false =>
    have hch : chosenList force llist rlist = llist := by
      have hc2 : (llist.length == 0 || force) = false := hcond
      simp only [chosenList, hc2]
      rfl
    rw [hch] at hchosen
    have h1 := resolveTag_ranged_local image force (.ok llist) (.ok rlist) hr hcond
    have p1 := pullDockerImage_of_resolve image force (.ok llist) (.ok rlist) none none
      true false (listOrNil (.ok llist)) h1
    rw [p1]
    simp only [pullFrom, resolveFrom, listOrNil, hchosen]
    rfl

/-- Witness for C7 (amended): wildcard image under `force`, an
applicable local candidate `a:1.0.0` and an empty remote list — the
chosen (remote) list has no applicable candidate, and the pull succeeds
carrying the original wildcard tag. -/
theorem pullDockerImage_no_candidates_falls_back_witness :
    (PullDockerImage ⟨"a", "*"⟩ true (.ok [⟨"a", "1.0.0"⟩]) (.ok []) none none).result =
      .ok (ImageName.New (ImageName.NameWithRegistry ⟨"a", "*"⟩) "*") :=
  pullDockerImage_no_candidates_falls_back ⟨"a", "*"⟩ true [⟨"a", "1.0.0"⟩] []
    (by decide) (by decide)

/-- C8: whenever `PullDockerImage` succeeds, its result is the freshly
constructed reference combining the original repository name with the
tag the resolution block produced — its name is the original image's
and its tag is the resolved tag. -/
theorem pullDockerImage_success_fresh_reference (image : ImageName) (force : Bool)
    (localSrc remoteSrc : Except String (List ImageName))
    (streamErr pullErr : Option String) (res : ImageName)
    (h : (PullDockerImage image force localSrc remoteSrc streamErr pullErr).result =
      .ok res) :
    res = ImageName.New image.NameWithRegistry res.tag ∧
    (resolveTag image force localSrc remoteSrc).2.2 = .ok res.tag ∧
    res.name = image.name := by
  rcases hres : resolveTag image force localSrc remoteSrc with ⟨uL, q⟩
  rcases q with ⟨uR, tres⟩
  cases tres with
  | error e =>
    rw [pullDockerImage_eq_error image force localSrc remoteSrc streamErr pullErr
      uL uR e hres] at h
    cases h
  | ok tag =>
    rw [pullDockerImage_eq_ok image force localSrc remoteSrc streamErr pullErr
      uL uR tag hres] at h
    cases streamErr with
    | some e => cases h
    | none =>
      cases pullErr with
      | some e => cases h
      | none =>
        have hres2 : ImageName.New image.NameWithRegistry tag = res := by
          have h2 : (Except.ok (ImageName.New image.NameWithRegistry tag) :
              Except String ImageName) = .ok res := h
          injection h2
        have htag : res.tag = tag := by rw [← hres2]; rfl
        refine ⟨by rw [htag, hres2], ?_, by rw [← hres2]; rfl⟩
        rw [htag]

/-- Witness for C8: wildcard image resolved from the local list. -/
theorem pullDockerImage_success_fresh_reference_witness :
    ((⟨"a", "1.2.0"⟩ : ImageName) =
      ImageName.New (ImageName.NameWithRegistry ⟨"a", "*"⟩) (ImageName.mk "a" "1.2.0").tag ∧
    (resolveTag ⟨"a", "*"⟩ false (.ok [⟨"a", "1.2.0"⟩]) (.ok [])).2.2 =
      .ok (ImageName.mk "a" "1.2.0").tag ∧
    (ImageName.mk "a" "1.2.0").name = (ImageName.mk "a" "*").name) :=
  pullDockerImage_success_fresh_reference ⟨"a", "*"⟩ false (.ok [⟨"a", "1.2.0"⟩])
    (.ok []) none none ⟨"a", "1.2.0"⟩ (by decide)

/-- C9: once the disposable container was created (the bootstrap
preamble having passed), `GetBridgeIp` always removes it — on the
success path and after a start or inspect failure alike — and the
removal error reaches the named return only when no earlier error
already claimed it: the body's start/inspect error wins. -/
theorem getBridgeIp_cleanup_after_create (inspectImgErr pullErr : Option String)
    (id : String) (startErr : Option String) (inspectContRes : Except String String)
    (removeErr : Option String)
    (hpre : inspectImgErr = none ∨
      (inspectImgErr = some "no such image" ∧ pullErr = none)) :
    (GetBridgeIp inspectImgErr pullErr (.ok id) startErr inspectContRes
      removeErr).removed = true ∧
    (GetBridgeIp inspectImgErr pullErr (.ok id) startErr inspectContRes removeErr).err =
      bridgeExpectedErr id startErr inspectContRes removeErr := by
  have hG : GetBridgeIp inspectImgErr pullErr (.ok id) startErr inspectContRes removeErr =
      bridgeAfterEnsure (.ok id) startErr inspectContRes removeErr := by
    rcases hpre with h | ⟨h1, h2⟩
    · rw [h]
      rfl
    · rw [h1, h2]
      rfl
  rw [hG]
  cases startErr with
  | some se => exact ⟨rfl, rfl⟩
  | none =>
    cases inspectContRes with
    | error ie => exact ⟨rfl, rfl⟩
    | ok gw => exact ⟨rfl, rfl⟩

/-- Witness for C9: successful body with a failing removal; the removal
error claims the return value. -/
theorem getBridgeIp_cleanup_after_create_witness :
    ((GetBridgeIp none (some "unused") (.ok "cid") none (.ok "172.17.0.1")
      (some "rm failed")).removed = true ∧
    (GetBridgeIp none (some "unused") (.ok "cid") none (.ok "172.17.0.1")
        (some "rm failed")).err =
      bridgeExpectedErr "cid" none (.ok "172.17.0.1") (some "rm failed")) :=
  getBridgeIp_cleanup_after_create none (some "unused") "cid" none (.ok "172.17.0.1")
    (some "rm failed") (Or.inl rfl)

/-- The inner tag loop contributes exactly the first contained parse of
one image's repo tags. -/
theorem innerScan_find (image : ImageName) :
    ∀ tags : List String, innerScan image tags =
      ((tags.map NewFromString).find? (fun c => image.Contains c)).toList := by
  intro tags
  induction tags with
  | nil => rfl
  | cons t rest ih =>
    by_cases h : image.Contains (NewFromString t) = true
    · simp only [innerScan, List.map_cons, h]
      rw [List.find?_cons_of_pos _ h]
      rfl
    · have hf : image.Contains (NewFromString t) = false := Bool.eq_false_iff.mpr h
      simp only [innerScan, List.map_cons, hf]
      rw [List.find?_cons_of_neg _ (by rw [hf]; exact Bool.false_ne_true)]
      simp only [Bool.false_eq_true, if_false]
      exact ih

/-- C10: the local candidate lister contributes at most one candidate
per locally listed image — exactly the first repo tag of that image the
target contains, all later tags of the same image being skipped. -/
theorem listImagesInDocker_first_contained_per_image (image : ImageName)
    (all : List (List String)) :
    listImagesInDocker image all =
      all.filterMap (fun tags => (tags.map NewFromString).find? (fun c => image.Contains c)) ∧
    ∀ tags ∈ all, (innerScan image tags).length ≤ 1 := by
  constructor
  · induction all with
    | nil => rfl
    | cons tags rest ih =>
      rw [listImagesInDocker, List.filterMap_cons, innerScan_find image tags]
      cases hf : (tags.map NewFromString).find? (fun c => image.Contains c) with
      | none =>
        rw [ih]
        rfl
      | some c =>
        rw [ih]
        rfl
  · intro tags _
    rw [innerScan_find image tags]
    cases (tags.map NewFromString).find? (fun c => image.Contains c) with
    | none => exact Nat.zero_le 1
    | some c => exact Nat.le_refl 1

end RockerCompose
